import Mathlib

/-!
Verification development for the `search-tariel-x` inverted-index repository.

The Go sources are embedded shallowly:

* strings are modelled as `List Char` (`Word`); characters are compared with
  the ASCII classifiers `Char.isAlpha` / `Char.isWhitespace`, which model
  `unicode.IsLetter` and the whitespace test of `bufio.ScanWords` on the
  ASCII fragment the repository's tests exercise;
* Go maps are modelled as association lists with an update-or-append
  discipline, so map semantics (unique keys) become provable invariants;
* the two external text libraries (`reiver/go-porterstemmer` and
  `zoomio/stopwords`) are not part of the repository; the pipeline is kept
  parametric in a stemming function `stem` and a stop-word predicate
  `isStop`, and concrete statements instantiate them with `testStem` /
  `testIsStop`, which record the libraries' documented behaviour on the
  vocabulary pinned down by the repository's own tests
  (`index/intex_test.go`) and the specification's worked scenario.
-/

namespace SearchTariel

/-- A Go string, viewed as its character list. -/
abbrev Word := List Char

/-- Characters of a string literal, for concrete inputs. -/
def strChars (s : String) : Word := s.data

/-- Model of `unicode.IsLetter` on the ASCII fragment. -/
def letter (c : Char) : Bool := c.isAlpha

/-- Model of the whitespace test used by `bufio.ScanWords` on the ASCII
fragment. -/
def space (c : Char) : Bool := c.isWhitespace

/-- Splitter worker: `acc` is the (possibly empty) run of kept characters
read so far; a separator or the end of input emits it. -/
def fieldsAux (p : Char → Bool) (acc : Word) : List Char → List Word
  | [] => if acc.isEmpty then [] else [acc]
  | c :: cs =>
    if p c then fieldsAux p (acc ++ [c]) cs
    else if acc.isEmpty then fieldsAux p [] cs
    else acc :: fieldsAux p [] cs

/-- Maximal runs of characters satisfying `p`, separators dropped.
`fields (fun c => !space c)` is `bufio.ScanWords`; `fields letter` is
`strings.FieldsFunc(query, fun r => !unicode.IsLetter r)`. -/
def fields (p : Char → Bool) (l : List Char) : List Word := fieldsAux p [] l

/-- The word stream `bufio.ScanWords` delivers to `Index.AddSource`. -/
def scanWords (l : List Char) : List Word := fields (fun c => !space c) l

/-- The raw query fields `Index.Search` builds with `strings.FieldsFunc`. -/
def queryFields (l : List Char) : List Word := fields letter l

/-- `strings.TrimFunc(rawToken, fun r => !unicode.IsLetter(r))`: strip
leading and trailing non-letter characters, interior preserved. -/
def trimNonLetters (w : Word) : Word :=
  ((w.dropWhile (fun c => !letter c)).reverse.dropWhile (fun c => !letter c)).reverse

/-- `Index.prepare`: trim non-letter edges, then stem. -/
def prepare (stem : Word → Word) (rawToken : Word) : Word :=
  stem (trimNonLetters rawToken)

/-- The scan loop of `Index.AddSource`: walk the word stream with a position
counter, skip stop words (`continue`, without incrementing the counter), and
emit `(token, position)` pairs in order. -/
def addSourceLoop (stem : Word → Word) (isStop : Word → Bool) :
    List Word → Nat → List (Word × Nat)
  | [], _ => []
  | w :: ws, pos =>
    let token := prepare stem w
    if isStop token then addSourceLoop stem isStop ws pos
    else (token, pos) :: addSourceLoop stem isStop ws (pos + 1)

/-- The `(token, position)` pairs `Index.AddSource` emits for a text. -/
def ingestTokens (stem : Word → Word) (isStop : Word → Bool) (text : List Char) :
    List (Word × Nat) :=
  addSourceLoop stem isStop (scanWords text) 0

/-- The normalized tokens of a text in ingestion order: prepared words with
stop words removed. -/
def keptTokens (stem : Word → Word) (isStop : Word → Bool) (ws : List Word) :
    List Word :=
  ((ws.map (prepare stem)).filter (fun t => !isStop t))

/-- The normalized query token list `Index.Search` builds: stem every raw
field (no trimming: fields are all-letter by construction) and drop stop
words.  Duplicate query words are kept. -/
def searchTokens (stem : Word → Word) (isStop : Word → Bool) (query : List Char) :
    List Word :=
  ((queryFields query).map stem).filter (fun t => !isStop t)

/-- Pair the elements of a list with consecutive positions starting at `n`. -/
def withPositions : Nat → List Word → List (Word × Nat)
  | _, [] => []
  | n, t :: ts => (t, n) :: withPositions (n + 1) ts

/-- Positions at which token `t` occurs in a token stream. -/
def indexesOf (t : Word) (ts : List Word) : List Nat :=
  (withPositions 0 ts).filterMap (fun tp => if tp.1 = t then some tp.2 else none)

/-- Behaviour of `porterstemmer.StemString` on the vocabulary pinned by the
repository's tests (`index/intex_test.go`) and the specification's worked
scenario: apple→appl, raspberry→raspberri, orange→orang; the remaining test
words (an, the, banana, foo, bar, foo-bar, …) and the empty string are fixed
points of the stemmer. -/
def testStem (w : Word) : Word :=
  if w = strChars "apple" then strChars "appl"
  else if w = strChars "raspberry" then strChars "raspberri"
  else if w = strChars "orange" then strChars "orang"
  else w

/-- Behaviour of `stopwords.IsStopWord` on the same vocabulary: `an` and
`the` are stop words; the other test words are not, and the stop-word list
does not contain the empty string. -/
def testIsStop (w : Word) : Bool :=
  w = strChars "an" || w = strChars "the"

/-! ## Association lists: the model of Go maps -/

/-- Lookup in an association list; Go's `m[k]` with the `ok` flag. -/
def alookup {α β : Type} [DecidableEq α] (k : α) : List (α × β) → Option β
  | [] => none
  | (a, b) :: rest => if a = k then some b else alookup k rest

/-- Append `pos` to the position list of `src`, creating the entry if absent:
the body of `Index.add` / `MemoryIndex.Add` acting on one `Occurrences` map. -/
def updOcc (src : String) (pos : Nat) : List (String × List Nat) → List (String × List Nat)
  | [] => [(src, [pos])]
  | (s, ps) :: rest =>
    if s = src then (s, ps ++ [pos]) :: rest else (s, ps) :: updOcc src pos rest

/-- Token-level postings update: `index[token][source.Name] = append(..., position)`,
creating missing entries on the way. -/
def updIdx (tok : Word) (src : String) (pos : Nat) :
    List (Word × List (String × List Nat)) → List (Word × List (String × List Nat))
  | [] => [(tok, [(src, [pos])])]
  | (t, occ) :: rest =>
    if t = tok then (t, updOcc src pos occ) :: rest
    else (t, occ) :: updIdx tok src pos rest

/-! ## The Memory Engine

Modelled from the spec: the `MemoryIndex` storage engine itself is not among
the provided sources (only its tests `TestMemoryIndex_Add` /
`TestMemoryIndex_Get` and its callers are), so `MemoryIndex.add` and
`MemoryIndex.get` follow spec §4.4 — register the `Source` if new, append
the position to `index[token][sourceName]`; `Get` copies out the requested
subset — and agree with the in-repo variant `Index.add` of
`src/index/index.go` and with the expectations of the tests. -/

/-- The Memory Engine state: postings map and source registry. -/
structure MemoryIndex where
  index : List (Word × List (String × List Nat))
  sources : List String
deriving DecidableEq

/-- The empty engine. -/
def MemoryIndex.empty : MemoryIndex := { index := [], sources := [] }

/-- `MemoryIndex.Add`: register the source name if new, append the position. -/
def MemoryIndex.add (e : MemoryIndex) (tok : Word) (pos : Nat) (src : String) :
    MemoryIndex :=
  { index := updIdx tok src pos e.index,
    sources := if src ∈ e.sources then e.sources else e.sources ++ [src] }

/-- The position list currently stored for `(tok, src)`. -/
def MemoryIndex.positions (e : MemoryIndex) (tok : Word) (src : String) : List Nat :=
  match alookup tok e.index with
  | none => []
  | some occ => (alookup src occ).getD []

/-- `MemoryIndex.Get`: postings restricted to the requested token set
(absent tokens omitted). -/
def MemoryIndex.get (e : MemoryIndex) (tokens : List Word) :
    List (Word × List (String × List Nat)) :=
  e.index.filter (fun te => decide (te.1 ∈ tokens))

/-- Position list for `(t, s)` in the postings returned by `Get`. -/
def getPositions (e : MemoryIndex) (tokens : List Word) (t : Word) (s : String) :
    List Nat :=
  match alookup t (e.get tokens) with
  | none => []
  | some occ => (alookup s occ).getD []

/-- The pipeline consumer (`Index.listen`) applying a list of emitted
`(token, position)` pairs of one document to the engine, in order. -/
def applyTokens (name : String) (tps : List (Word × Nat)) (e : MemoryIndex) :
    MemoryIndex :=
  tps.foldl (fun e tp => e.add tp.1 tp.2 name) e

/-- Complete ingestion of one document: every pair `AddSource` emits has been
drained into the engine. -/
def ingestDoc (stem : Word → Word) (isStop : Word → Bool) (name : String)
    (text : List Char) (e : MemoryIndex) : MemoryIndex :=
  applyTokens name (ingestTokens stem isStop text) e

/-! ## C1 -/

/-- The positions the claim asserts: zero-based offsets of the token in the
raw whitespace-split word stream, counted before stop-word removal.
Following the claim's words, for comparison against the code. -/
def specRawPositions (stem : Word → Word) (text : List Char) (t : Word) : List Nat :=
  indexesOf t ((scanWords text).map (prepare stem))

/-! ## C2: the default scoring algorithm -/

/-- `TmpResultItem`: matched-token count and per-token positions for one
document (the unused `score` field of the Go struct is omitted). -/
structure TmpResultItem where
  count : Nat
  occurrences : List (Word × List Nat)
deriving DecidableEq

/-- `Result`: the document (by its `Source` name) and its score. -/
structure Result where
  document : String
  score : Nat
deriving DecidableEq

/-- The score `ScoreByCount` computes for one kept item: total occurrence
count summed over all matched tokens. -/
def itemScore (it : TmpResultItem) : Nat :=
  (it.occurrences.map (fun o => o.2.length)).sum

/-- Insert a result into a list that is sorted by descending score, keeping
it sorted: the model of the `sort.Slice(..., Score >)` post-pass. -/
def insertByScore (r : Result) : List Result → List Result
  | [] => [r]
  | x :: xs => if x.score < r.score then r :: x :: xs else x :: insertByScore r xs

/-- Sort results by descending score. -/
def sortByScore (l : List Result) : List Result := l.foldr insertByScore []

/-- Sortedness by descending score. -/
def SortedDesc (l : List Result) : Prop :=
  l.Pairwise (fun a b => b.score ≤ a.score)

/-- `ScoreByCount`: keep documents whose matched-token count is not below
the length of the query token list, score them by total occurrences, sort
descending. -/
def scoreByCount (items : List (String × TmpResultItem)) (tokens : List Word) :
    List Result :=
  sortByScore
    (items.filterMap (fun si =>
      if si.2.count < tokens.length then none
      else some ⟨si.1, itemScore si.2⟩))

/-- `item.occurrences[token] = positions` inside the `Search` fold. -/
def setOcc (tok : Word) (ps : List Nat) : List (Word × List Nat) → List (Word × List Nat)
  | [] => [(tok, ps)]
  | (t, q) :: rest => if t = tok then (t, ps) :: rest else (t, q) :: setOcc tok ps rest

/-- One inner step of the `Search` fold: create the document's
`TmpResultItem` if absent, increment its matched-token count, record the
positions under the token. -/
def bumpSource (tok : Word) (ps : List Nat) (src : String) :
    List (String × TmpResultItem) → List (String × TmpResultItem)
  | [] => [(src, ⟨1, [(tok, ps)]⟩)]
  | (s, it) :: rest =>
    if s = src then (s, ⟨it.count + 1, setOcc tok ps it.occurrences⟩) :: rest
    else (s, it) :: bumpSource tok ps src rest

/-- Fold one token's postings into the per-document tally. -/
def addTokenOccs (items : List (String × TmpResultItem)) (tok : Word)
    (occ : List (String × List Nat)) : List (String × TmpResultItem) :=
  occ.foldl (fun items so => bumpSource tok so.2 so.1 items) items

/-- The per-document tally `Index.Search` builds from the engine's `Get`
result. -/
def searchItems (occList : List (Word × List (String × List Nat))) :
    List (String × TmpResultItem) :=
  occList.foldl (fun items te => addTokenOccs items te.1 te.2) []

/-- `Index.Search` over the Memory Engine with the default range algorithm:
normalize the query (duplicates kept), `Get` the postings, early-return on
an empty result, tally per document, then `ScoreByCount`. -/
def memSearch (e : MemoryIndex) (stem : Word → Word) (isStop : Word → Bool)
    (query : List Char) : List Result :=
  let tokens := searchTokens stem isStop query
  let occList := e.get tokens
  if occList.isEmpty then []
  else scoreByCount (searchItems occList) tokens

/-! ## C5: Encode / Decode round trip of the memory-based index

`src/index/index.go` keeps the postings map (`Index`, token → source name →
positions) and the source registry (`Sources`) as exported fields of the
`Index` struct, next to the unexported `chanIn`, `m` and `rangeAlgorithm`
which are not serialized.  `Encode` hands the whole struct to an external
`Encoder` under the read lock; `Decode` makes a fresh `NewIndex(nil)` and
lets the external `Decoder` populate the exported fields.  The codec itself
(`encoding/json` / `encoding/gob`) is outside the repository; per the
interface contracts and spec §6 it is modelled as a lossless snapshot of the
two exported fields. -/

/-- The `Index` struct of `src/index/index.go`: exported postings map and
source registry, plus the unexported channel content (which is never
serialized). -/
structure IndexFacade where
  postings : List (Word × List (String × List Nat))
  sources : List String
  queue : List (Word × Nat × String)
deriving DecidableEq

/-- `NewIndex(nil)`: empty maps, fresh channel. -/
def newIndexFacade : IndexFacade := { postings := [], sources := [], queue := [] }

/-- `Index.add` of `src/index/index.go` (the pipeline consumer): register
the source if new, create missing entries, append the position. -/
def IndexFacade.add (i : IndexFacade) (tok : Word) (pos : Nat) (src : String) :
    IndexFacade :=
  { postings := updIdx tok src pos i.postings,
    sources := if src ∈ i.sources then i.sources else i.sources ++ [src],
    queue := i.queue }

/-- Any index state reachable by a finite sequence of add operations. -/
def buildIndex (ops : List (Word × Nat × String)) : IndexFacade :=
  ops.foldl (fun i op => i.add op.1 op.2.1 op.2.2) newIndexFacade

/-- The encoded snapshot: exactly the serializable exported fields. -/
structure IndexSnapshot where
  postings : List (Word × List (String × List Nat))
  sources : List String
deriving DecidableEq

/-- `Index.Encode`: snapshot the exported fields under the read lock. -/
def encodeIndex (i : IndexFacade) : IndexSnapshot :=
  { postings := i.postings, sources := i.sources }

/-- `Decode`: a fresh `NewIndex(nil)` whose exported fields are populated
from the snapshot (the channel is a fresh empty one). -/
def decodeIndex (s : IndexSnapshot) : IndexFacade :=
  { postings := s.postings, sources := s.sources, queue := [] }

/-- Position list of `(t, s)` in a facade's postings map. -/
def facadePositions (i : IndexFacade) (t : Word) (s : String) : List Nat :=
  match alookup t i.postings with
  | none => []
  | some occ => (alookup s occ).getD []

/-! ## C4 / C10: the Relational Engine's flush loop and Close

`DbIndex.flush` keeps a local `insertList`; on every tick of a ten-second
ticker it bulk-inserts the list if nonempty (on error it logs and
`continue`s — the list is *not* reset), and resets the list only after a
successful insert; between ticks it appends occurrences received from the
`insertC` channel.  `DbIndex.Close` only calls `pg.Close()`; queries on a
closed `go-pg` connection fail, so a tick after `Close` takes the error
branch. -/

/-- A buffered occurrence row: token id, document id, position. -/
structure Occurrence where
  tokenId : Nat
  documentId : Nat
  position : Nat
deriving DecidableEq

/-- State of the flush goroutine and the backing `occurrences` table. -/
structure FlushState where
  buffer : List Occurrence
  store : List Occurrence
  closed : Bool
deriving DecidableEq

/-- One `select` arm of `DbIndex.flush`: a ticker tick (with the bulk
insert's outcome) or a receive from `insertC`. -/
inductive FlushEvent where
  | tick (ok : Bool)
  | recv (o : Occurrence)

/-- One iteration of the `flush` loop.  On a tick: an empty buffer is
skipped; a successful insert (only possible on an open connection) appends
the whole buffer to the store and clears it; a failed insert logs and
`continue`s, leaving `insertList` untouched. -/
def flushStep (s : FlushState) : FlushEvent → FlushState
  | .recv o => { s with buffer := s.buffer ++ [o] }
  | .tick ok =>
    if s.buffer.isEmpty then s
    else if ok && !s.closed then
      { buffer := [], store := s.store ++ s.buffer, closed := s.closed }
    else s

/-- Run the flush loop over a sequence of events. -/
def runFlush (s : FlushState) (evs : List FlushEvent) : FlushState :=
  evs.foldl flushStep s

/-- `DbIndex.Close`: closes the database connection and nothing else. -/
def dbClose (s : FlushState) : FlushState := { s with closed := true }

/-! ## C6: get-or-create caching of token and document identities

`DbIndex.getToken` / `DbIndex.getDocument`: check the in-memory cache; on a
miss, `SELECT` the backing row by natural key and return it if found
(without touching the cache); only if the row does not exist, `INSERT` a new
row and populate the cache.  The claim concerns the sequential calls issued
by the single pipeline consumer, so the embedding is a sequential state
transformer; the backing store is modelled functionally (a select returns
exactly the rows previously inserted), with fresh primary keys drawn from a
counter. -/

/-- State of a `DbIndex` instance together with its backing store. -/
structure DbState where
  tokensCache : List (String × Nat)
  documentsCache : List (String × Nat)
  tokenRows : List (Nat × String)
  documentRows : List (Nat × String)
  nextTokenId : Nat
  nextDocumentId : Nat
  pending : List Occurrence
deriving DecidableEq

/-- `NewDbIndex` over a backing store: empty caches, no pending rows (the
backing tables may carry rows from earlier instances). -/
def newDbIndex (tokenRows documentRows : List (Nat × String))
    (nextTokenId nextDocumentId : Nat) : DbState :=
  ⟨[], [], tokenRows, documentRows, nextTokenId, nextDocumentId, []⟩

/-- A fresh instance over an empty backing store. -/
def dbEmpty : DbState := newDbIndex [] [] 1 1

/-- `SELECT id FROM ... WHERE key = ?`. -/
def selectRow (rows : List (Nat × String)) (key : String) : Option Nat :=
  (rows.find? (fun r => decide (r.2 = key))).map Prod.fst

/-- `DbIndex.getToken`: cache hit, or select-by-key hit (cache not
populated on this path, as in the source), or insert-and-cache. -/
def getToken (s : DbState) (tok : String) : DbState × Nat :=
  match alookup tok s.tokensCache with
  | some id => (s, id)
  | none =>
    match selectRow s.tokenRows tok with
    | some id => (s, id)
    | none =>
      ({ s with tokenRows := s.tokenRows ++ [(s.nextTokenId, tok)],
                tokensCache := s.tokensCache ++ [(tok, s.nextTokenId)],
                nextTokenId := s.nextTokenId + 1 }, s.nextTokenId)

/-- `DbIndex.getDocument`, same shape as `getToken`. -/
def getDocument (s : DbState) (name : String) : DbState × Nat :=
  match alookup name s.documentsCache with
  | some id => (s, id)
  | none =>
    match selectRow s.documentRows name with
    | some id => (s, id)
    | none =>
      ({ s with documentRows := s.documentRows ++ [(s.nextDocumentId, name)],
                documentsCache := s.documentsCache ++ [(name, s.nextDocumentId)],
                nextDocumentId := s.nextDocumentId + 1 }, s.nextDocumentId)

/-- `DbIndex.Add`: resolve both identities, then push the occurrence onto
the flush channel. -/
def dbAdd (s : DbState) (tok : String) (pos : Nat) (name : String) : DbState :=
  let r1 := getToken s tok
  let r2 := getDocument r1.1 name
  { r2.1 with pending := r2.1.pending ++ [⟨r1.2, r2.2, pos⟩] }

/-- A sequence of `Add` calls from the single pipeline consumer. -/
def dbRun (s : DbState) (ops : List (String × Nat × String)) : DbState :=
  ops.foldl (fun s op => dbAdd s op.1 op.2.1 op.2.2) s

/-- The token identity recorded by the most recent `Add`. -/
def lastTokenId (s : DbState) : Option Nat :=
  s.pending.getLast?.map Occurrence.tokenId

/-- The uniqueness invariant of the backing tables (`token unique`,
`name unique`): one row per value. -/
def DbInv (s : DbState) : Prop :=
  (s.tokenRows.map Prod.snd).Nodup ∧ (s.documentRows.map Prod.snd).Nodup

instance : DecidablePred DbInv := fun s => by
  unfold DbInv
  infer_instance

/-! ## C8: AddSource never reports a stream failure

`bufio.Scanner.Scan` returns `false` both at end of input and on a read
error; `Index.AddSource` loops while `Scan` is true and then executes
`return nil` without ever calling `scanner.Err()`.  The scanner is modelled
by the words it delivered before stopping plus the error it would report —
which the code never reads. -/

/-- A scanner: the words successfully scanned before `Scan` returned
`false`, and the error `scanner.Err()` would report (`none` for plain EOF). -/
structure ScannerInput where
  words : List Word
  scanErr : Option String
deriving DecidableEq

/-- `Index.AddSource` on a scanner: the returned error and the
`(token, position)` pairs sent to the channel.  The loop consumes only the
delivered words; the result is `nil` on every path. -/
def addSourceRun (stem : Word → Word) (isStop : Word → Bool)
    (input : ScannerInput) : Option String × List (Word × Nat) :=
  (none, addSourceLoop stem isStop input.words 0)

/-! ## C9: the ingestion pipeline is asynchronous

`NewIndex` starts `listen` as a goroutine draining the *unbuffered* channel
`chanIn`; `AddSource` sends each emitted pair on that channel.  An
unbuffered send completes exactly when the consumer receives the item, and
the consumer only receives the next item after `engine.Add` for the
previous one returned.  The small-step model: `toSend` is what the producer
still has to send, `inFlight` is an item received by `listen` whose
`engine.Add` has not yet returned, `applied` are the completed `Add`s. -/

/-- Configuration of one `AddSource` producer and the `listen` consumer. -/
structure PipeState where
  toSend : List (Word × Nat)
  inFlight : Option (Word × Nat)
  applied : List (Word × Nat)
deriving DecidableEq

/-- Interleaving steps: a rendezvous hands the next item to the consumer
(possible only when the consumer is idle); applying finishes the pending
`engine.Add`. -/
inductive PipeStep : PipeState → PipeState → Prop
  | handoff (i : Word × Nat) (rest : List (Word × Nat)) (ap : List (Word × Nat)) :
      PipeStep ⟨i :: rest, none, ap⟩ ⟨rest, some i, ap⟩
  | apply (ts : List (Word × Nat)) (i : Word × Nat) (ap : List (Word × Nat)) :
      PipeStep ⟨ts, some i, ap⟩ ⟨ts, none, ap ++ [i]⟩

/-- Initial configuration: `AddSource` about to send the emitted pairs. -/
def pipeInit (items : List (Word × Nat)) : PipeState := ⟨items, none, []⟩

/-- Reachability under pipeline interleavings. -/
def PipeReaches : PipeState → PipeState → Prop := Relation.ReflTransGen PipeStep

/-- The item held by the consumer, as a list. -/
def inFlightList (s : PipeState) : List (Word × Nat) := s.inFlight.toList

/-! ## Theorems -/

example : scanWords (strChars "an apple banana raspberry") =
    [strChars "an", strChars "apple", strChars "banana", strChars "raspberry"] := by
  decide

example : ingestTokens testStem testIsStop (strChars "an apple banana raspberry") =
    [(strChars "appl", 0), (strChars "banana", 1), (strChars "raspberri", 2)] := by
  decide

/-! ### Association-list lemmas -/

theorem alookup_updOcc_same (src : String) (pos : Nat) (occ : List (String × List Nat)) :
    alookup src (updOcc src pos occ) = some ((alookup src occ).getD [] ++ [pos]) := by
  induction occ with
  | nil => simp [updOcc, alookup]
  | cons hd tl ih =>
    obtain ⟨s, ps⟩ := hd
    by_cases h : s = src
    · subst h
      simp [updOcc, alookup]
    · simp [updOcc, alookup, h, ih]

theorem alookup_updOcc_other {s' src : String} (h : s' ≠ src) (pos : Nat)
    (occ : List (String × List Nat)) :
    alookup s' (updOcc src pos occ) = alookup s' occ := by
  induction occ with
  | nil => simp [updOcc, alookup, Ne.symm h]
  | cons hd tl ih =>
    obtain ⟨s, ps⟩ := hd
    by_cases hs : s = src
    · subst hs
      simp [updOcc, alookup, Ne.symm h]
    · simp [updOcc, alookup, hs, ih]

theorem alookup_updIdx_same (tok : Word) (src : String) (pos : Nat)
    (idx : List (Word × List (String × List Nat))) :
    alookup tok (updIdx tok src pos idx) =
      some (updOcc src pos ((alookup tok idx).getD [])) := by
  induction idx with
  | nil => simp [updIdx, alookup, updOcc]
  | cons hd tl ih =>
    obtain ⟨t, occ⟩ := hd
    by_cases h : t = tok
    · subst h
      simp [updIdx, alookup]
    · simp [updIdx, alookup, h, ih]

theorem alookup_updIdx_other {t tok : Word} (h : t ≠ tok) (src : String) (pos : Nat)
    (idx : List (Word × List (String × List Nat))) :
    alookup t (updIdx tok src pos idx) = alookup t idx := by
  induction idx with
  | nil => simp [updIdx, alookup, Ne.symm h]
  | cons hd tl ih =>
    obtain ⟨t0, occ⟩ := hd
    by_cases h0 : t0 = tok
    · subst h0
      simp [updIdx, alookup, Ne.symm h]
    · simp [updIdx, alookup, h0, ih]

/-- Effect of one `Add` on the stored position list. -/
theorem add_positions (e : MemoryIndex) (tok : Word) (pos : Nat) (src : String)
    (t : Word) (s : String) :
    (e.add tok pos src).positions t s =
      if t = tok ∧ s = src then e.positions t s ++ [pos] else e.positions t s := by
  by_cases ht : t = tok
  · subst ht
    by_cases hs : s = src
    · subst hs
      simp only [MemoryIndex.positions, MemoryIndex.add, alookup_updIdx_same,
        and_self, if_true]
      cases hidx : alookup t e.index with
      | none => simp [alookup_updOcc_same, alookup]
      | some occ => simp [alookup_updOcc_same]
    · simp only [MemoryIndex.positions, MemoryIndex.add, alookup_updIdx_same,
        hs, and_false, if_false]
      cases hidx : alookup t e.index with
      | none => simp [alookup_updOcc_other hs, alookup, updOcc, Ne.symm hs]
      | some occ => simp [alookup_updOcc_other hs]
  · simp [MemoryIndex.positions, MemoryIndex.add, alookup_updIdx_other ht, ht]

/-- Folding the consumer over emitted pairs appends, for each `(t, s)` with
`s` the ingested document, exactly the positions emitted for `t`. -/
theorem applyTokens_positions (name : String) (tps : List (Word × Nat))
    (e : MemoryIndex) (t : Word) (s : String) :
    (applyTokens name tps e).positions t s =
      e.positions t s ++
        (if s = name then
          tps.filterMap (fun tp => if tp.1 = t then some tp.2 else none)
        else []) := by
  induction tps generalizing e with
  | nil => simp [applyTokens]
  | cons hd tl ih =>
    obtain ⟨tok, pos⟩ := hd
    have hstep : applyTokens name ((tok, pos) :: tl) e =
        applyTokens name tl (e.add tok pos name) := rfl
    rw [hstep, ih, add_positions]
    by_cases hs : s = name
    · subst hs
      by_cases ht : tok = t
      · subst ht
        simp [List.filterMap_cons]
      · simp [List.filterMap_cons, ht, Ne.symm ht]
    · simp [hs]

theorem alookup_filter_mem {t : Word} {tokens : List Word}
    (h : t ∈ tokens) (idx : List (Word × List (String × List Nat))) :
    alookup t (idx.filter (fun te => decide (te.1 ∈ tokens))) = alookup t idx := by
  induction idx with
  | nil => simp
  | cons hd tl ih =>
    obtain ⟨t0, occ⟩ := hd
    by_cases h0 : t0 = t
    · subst h0
      simp [List.filter_cons, h, alookup]
    · by_cases hmem : t0 ∈ tokens
      · simp [List.filter_cons, hmem, alookup, h0, ih]
      · simp [List.filter_cons, hmem, alookup, h0, ih]

/-- `Get` on a requested token reads the stored position list. -/
theorem getPositions_eq (e : MemoryIndex) {tokens : List Word} {t : Word}
    (h : t ∈ tokens) (s : String) :
    getPositions e tokens t s = e.positions t s := by
  simp [getPositions, MemoryIndex.get, MemoryIndex.positions, alookup_filter_mem h]

/-- The scan loop enumerates exactly the kept (non-stop-word) tokens, with
positions counted over the kept stream starting at the loop counter. -/
theorem addSourceLoop_eq (stem : Word → Word) (isStop : Word → Bool)
    (ws : List Word) (n : Nat) :
    addSourceLoop stem isStop ws n = withPositions n (keptTokens stem isStop ws) := by
  induction ws generalizing n with
  | nil => simp [addSourceLoop, keptTokens, withPositions]
  | cons w ws ih =>
    by_cases h : isStop (prepare stem w)
    · simpa [addSourceLoop, keptTokens, List.filter_cons, h] using ih n
    · simpa [addSourceLoop, keptTokens, List.filter_cons, h, withPositions] using ih (n + 1)

/-- In the empty engine every position list is empty. -/
theorem empty_positions (t : Word) (s : String) :
    MemoryIndex.empty.positions t s = [] := rfl

/-- C1 (amended): after ingestion of a document into an empty Memory Engine
completes, `Get({T})` returns for `(T, D)` exactly the positions of `T` in
the *kept* token stream — the zero-based ordinals among the tokens that
survived stop-word removal, order-preserving and with duplicates — not the
raw word-stream offsets: `Index.AddSource` increments its position counter
only for words that pass the stop-word filter. -/
theorem c1_get_returns_kept_stream_positions
    (stem : Word → Word) (isStop : Word → Bool) (name : String)
    (text : List Char) (t : Word) :
    getPositions (ingestDoc stem isStop name text MemoryIndex.empty) [t] t name =
      indexesOf t (keptTokens stem isStop (scanWords text)) := by
  have hmem : t ∈ [t] := List.mem_singleton.mpr rfl
  rw [getPositions_eq _ hmem, ingestDoc, applyTokens_positions, empty_positions]
  simp only [List.nil_append, if_pos rfl]
  rw [ingestTokens, addSourceLoop_eq]
  rfl

/-- C1 counterexample: for the repository's own test document
`file1 = "an apple banana raspberry"`, the raw word-stream position of the
token `appl` is 1 (the stop word `an` occupies offset 0), but after
ingestion `Get({appl})` returns position 0 for `file1`: positions are
counted over the retained stream, so the claim's raw-offset postings are not
what `Get` returns. -/
theorem c1_counterexample :
    getPositions
        (ingestDoc testStem testIsStop "file1"
          (strChars "an apple banana raspberry") MemoryIndex.empty)
        [strChars "appl"] (strChars "appl") "file1" = [0] ∧
    specRawPositions testStem (strChars "an apple banana raspberry")
        (strChars "appl") = [1] ∧
    getPositions
        (ingestDoc testStem testIsStop "file1"
          (strChars "an apple banana raspberry") MemoryIndex.empty)
        [strChars "appl"] (strChars "appl") "file1" ≠
      specRawPositions testStem (strChars "an apple banana raspberry")
        (strChars "appl") := by
  refine ⟨by decide, by decide, by decide⟩

/-- The token stream `AddSource` emits is exactly the trimmed, stemmed,
stop-filtered word stream. -/
theorem ingestTokens_fst (stem : Word → Word) (isStop : Word → Bool)
    (text : List Char) :
    (ingestTokens stem isStop text).map Prod.fst =
      keptTokens stem isStop (scanWords text) := by
  rw [ingestTokens, addSourceLoop_eq]
  generalize keptTokens stem isStop (scanWords text) = ts
  have aux : ∀ (ts : List Word) (n : Nat), (withPositions n ts).map Prod.fst = ts := by
    intro ts
    induction ts with
    | nil => intro n; simp [withPositions]
    | cons t ts ih => intro n; simp [withPositions, ih]
  exact aux ts 0

/-! ## C7 -/

/-- C7 (amended): during ingestion every whitespace-delimited word is
stripped of leading and trailing non-letter characters (interior preserved)
and then stemmed, and it is dropped exactly when the stemmed result matches
the stop-word list.  A word that is empty after stripping is *not* dropped:
the stop-word list does not contain the empty string, so such a word is
stemmed to the empty string and indexed under the empty token. -/
theorem c7_drop_condition_is_stopword_only
    (stem : Word → Word) (isStop : Word → Bool) (text : List Char) :
    (ingestTokens stem isStop text).map Prod.fst =
      ((scanWords text).map (fun w => stem (trimNonLetters w))).filter
        (fun t => !isStop t) := by
  simpa [keptTokens, prepare] using ingestTokens_fst stem isStop text

/-- C7 counterexample: in the document `"123 apple"` the word `123` is empty
after stripping its non-letter characters, yet it produces an indexed
occurrence — the empty token at position 0 — because the drop test is only
the stop-word check and the empty string is not a stop word.  The next kept
token even shifts to position 1. -/
theorem c7_counterexample :
    trimNonLetters (strChars "123") = [] ∧
    testIsStop [] = false ∧
    ingestTokens testStem testIsStop (strChars "123 apple") =
      [([], 0), (strChars "appl", 1)] ∧
    ([], 0) ∈ ingestTokens testStem testIsStop (strChars "123 apple") := by
  refine ⟨by decide, by decide, by decide, by decide⟩

/-! ## C3 -/

/-- ASCII letters are not whitespace. -/
theorem letter_not_space (c : Char) (h : letter c = true) : space c = false := by
  cases hx : space c
  · rfl
  · exfalso
    have hs' : c = ' ' ∨ c = '\t' ∨ c = '\r' ∨ c = '\n' := by
      have := hx
      simp only [space, Char.isWhitespace, Bool.or_eq_true, decide_eq_true_eq] at this
      tauto
    rcases hs' with h1 | h1 | h1 | h1 <;> subst h1 <;> exact absurd h (by decide)

/-- The splitter only looks at the predicate's values on the input. -/
theorem fieldsAux_congr {p q : Char → Bool} :
    ∀ (l : List Char) (acc : Word), (∀ c ∈ l, p c = q c) →
      fieldsAux p acc l = fieldsAux q acc l
  | [], _, _ => rfl
  | c :: cs, acc, h => by
    have hc : p c = q c := h c (List.mem_cons_self c cs)
    have ih : ∀ acc, fieldsAux p acc cs = fieldsAux q acc cs :=
      fun acc => fieldsAux_congr cs acc (fun x hx => h x (List.mem_cons_of_mem c hx))
    simp only [fieldsAux, hc]
    by_cases hq : q c = true
    · simp [hq, ih]
    · simp [hq, ih]

/-- Every run the splitter emits is nonempty and consists of characters
satisfying the predicate. -/
theorem fieldsAux_forall {p : Char → Bool} :
    ∀ (l : List Char) (acc : Word), (∀ c ∈ acc, p c = true) →
      ∀ w ∈ fieldsAux p acc l, w ≠ [] ∧ ∀ c ∈ w, p c = true
  | [], acc, hacc => by
    intro w hw
    by_cases he : acc.isEmpty
    · simp [fieldsAux, he] at hw
    · simp [fieldsAux, he] at hw
      subst hw
      exact ⟨fun hn => he (by simp [hn]), hacc⟩
  | c :: cs, acc, hacc => by
    intro w hw
    by_cases hp : p c = true
    · have hacc' : ∀ x ∈ acc ++ [c], p x = true := by
        intro x hx
        rcases List.mem_append.mp hx with hx | hx
        · exact hacc x hx
        · simp at hx
          subst hx
          exact hp
      exact fieldsAux_forall cs (acc ++ [c]) hacc' w (by simpa [fieldsAux, hp] using hw)
    · by_cases he : acc.isEmpty
      · exact fieldsAux_forall cs [] (by simp) w
          (by simpa [fieldsAux, hp, he] using hw)
      · simp only [fieldsAux, hp, if_false, he, Bool.false_eq_true] at hw
        rcases List.mem_cons.mp hw with hw | hw
        · subst hw
          exact ⟨fun hn => he (by simp [hn]), hacc⟩
        · exact fieldsAux_forall cs [] (by simp) w hw

/-- Dropping while a predicate that fails on every element changes nothing. -/
theorem dropWhile_eq_self_of_forall {q : Char → Bool} :
    ∀ l : List Char, (∀ c ∈ l, q c = false) → l.dropWhile q = l
  | [], _ => rfl
  | c :: cs, h => by
    have hc : q c = false := h c (List.mem_cons_self c cs)
    simp [List.dropWhile_cons, hc]

/-- Trimming a word made of letters only is the identity. -/
theorem trimNonLetters_of_letters {w : Word} (h : ∀ c ∈ w, letter c = true) :
    trimNonLetters w = w := by
  have h1 : w.dropWhile (fun c => !letter c) = w :=
    dropWhile_eq_self_of_forall w (fun c hc => by simp [h c hc])
  have h2 : w.reverse.dropWhile (fun c => !letter c) = w.reverse :=
    dropWhile_eq_self_of_forall w.reverse
      (fun c hc => by simp [h c (List.mem_reverse.mp hc)])
  simp [trimNonLetters, h1, h2]

/-- C3 (amended): the query-time and ingestion-time normalized token
sequences coincide for every text whose characters are only whitespace and
letters (i.e. whose words contain no interior non-letter characters).  In
general they differ: ingestion splits on whitespace and trims the edges of
each word, while `Search` splits the query at *every* non-letter character,
so a word with an interior non-letter produces different token sequences. -/
theorem c3_query_normalization_matches_ingestion
    (stem : Word → Word) (isStop : Word → Bool) (text : List Char)
    (h : ∀ c ∈ text, space c = true ∨ letter c = true) :
    searchTokens stem isStop text = (ingestTokens stem isStop text).map Prod.fst := by
  rw [ingestTokens_fst]
  have hsplit : scanWords text = queryFields text := by
    apply fieldsAux_congr
    intro c hc
    rcases h c hc with hs | hl
    · have : letter c = false := by
        cases hx : letter c
        · rfl
        · rw [letter_not_space c hx] at hs
          exact absurd hs (by simp)
      simp [hs, this]
    · simp [letter_not_space c hl, hl]
  rw [hsplit, keptTokens, searchTokens]
  have hwords : ∀ w ∈ queryFields text, prepare stem w = stem w := by
    intro w hw
    have := fieldsAux_forall text [] (by simp) w hw
    rw [prepare, trimNonLetters_of_letters this.2]
  rw [List.map_congr_left hwords]

/-- C3 counterexample: for the text `"foo-bar"` ingestion produces the
single token `foo-bar` (interior dash preserved, edges already letters),
while the same text as a query is split at the dash into the two tokens
`foo` and `bar`: the two normalization paths disagree. -/
theorem c3_counterexample :
    (ingestTokens testStem testIsStop (strChars "foo-bar")).map Prod.fst =
      [strChars "foo-bar"] ∧
    searchTokens testStem testIsStop (strChars "foo-bar") =
      [strChars "foo", strChars "bar"] ∧
    searchTokens testStem testIsStop (strChars "foo-bar") ≠
      (ingestTokens testStem testIsStop (strChars "foo-bar")).map Prod.fst := by
  refine ⟨by decide, by decide, by decide⟩

/-- C3 witness: the hypothesis holds and the amended equality is obtained
from the theorem on the all-letter text `"apple banana"`. -/
theorem c3_witness :
    (∀ c ∈ strChars "apple banana", space c = true ∨ letter c = true) ∧
    searchTokens testStem testIsStop (strChars "apple banana") =
      (ingestTokens testStem testIsStop (strChars "apple banana")).map Prod.fst :=
  ⟨by decide,
    c3_query_normalization_matches_ingestion testStem testIsStop _ (by decide)⟩

theorem mem_insertByScore {a r : Result} :
    ∀ {l : List Result}, a ∈ insertByScore r l ↔ a = r ∨ a ∈ l := by
  intro l
  induction l with
  | nil => simp [insertByScore]
  | cons x xs ih =>
    by_cases h : x.score < r.score
    · simp [insertByScore, h]
    · simp [insertByScore, h, ih]
      tauto

theorem mem_sortByScore {a : Result} :
    ∀ {l : List Result}, a ∈ sortByScore l ↔ a ∈ l := by
  intro l
  induction l with
  | nil => simp [sortByScore]
  | cons x xs ih =>
    have : sortByScore (x :: xs) = insertByScore x (sortByScore xs) := rfl
    rw [this]
    simp [mem_insertByScore, ih]

theorem sorted_insertByScore (r : Result) :
    ∀ {l : List Result}, SortedDesc l → SortedDesc (insertByScore r l) := by
  intro l
  induction l with
  | nil => intro _; simp [insertByScore, SortedDesc]
  | cons x xs ih =>
    intro hs
    rw [SortedDesc, List.pairwise_cons] at hs
    by_cases h : x.score < r.score
    · rw [insertByScore, if_pos h, SortedDesc, List.pairwise_cons]
      refine ⟨?_, ?_⟩
      · intro b hb
        rcases List.mem_cons.mp hb with hb | hb
        · subst hb
          exact Nat.le_of_lt h
        · exact Nat.le_trans (hs.1 b hb) (Nat.le_of_lt h)
      · exact List.Pairwise.cons hs.1 hs.2
    · rw [insertByScore, if_neg h, SortedDesc, List.pairwise_cons]
      refine ⟨?_, ih hs.2⟩
      intro b hb
      rcases mem_insertByScore.mp hb with hb | hb
      · subst hb
        exact Nat.le_of_not_lt h
      · exact hs.1 b hb

theorem sorted_sortByScore : ∀ (l : List Result), SortedDesc (sortByScore l) := by
  intro l
  induction l with
  | nil => simp [sortByScore, SortedDesc]
  | cons x xs ih => exact sorted_insertByScore x ih

/-- C2 (amended): `ScoreByCount` includes a document if and only if its
matched-token count is at least the *length* of the normalized query token
list — duplicates counted, not the number of distinct query tokens — an
included document's score is the total occurrence count summed over its
matched tokens, and the returned list is sorted by descending score. -/
theorem c2_scoreByCount_threshold_is_token_list_length
    (items : List (String × TmpResultItem)) (tokens : List Word) :
    SortedDesc (scoreByCount items tokens) ∧
    (∀ r ∈ scoreByCount items tokens,
      ∃ it, (r.document, it) ∈ items ∧ tokens.length ≤ it.count ∧
        r.score = itemScore it) ∧
    (∀ s it, (s, it) ∈ items → tokens.length ≤ it.count →
      ∃ r ∈ scoreByCount items tokens, r.document = s ∧ r.score = itemScore it) := by
  refine ⟨sorted_sortByScore _, ?_, ?_⟩
  · intro r hr
    rw [scoreByCount, mem_sortByScore, List.mem_filterMap] at hr
    obtain ⟨⟨s, it⟩, hmem, heq⟩ := hr
    by_cases h : it.count < tokens.length
    · simp [h] at heq
    · simp only [h, if_false, Option.some.injEq] at heq
      subst heq
      exact ⟨it, hmem, Nat.le_of_not_lt h, rfl⟩
  · intro s it hmem hcount
    refine ⟨⟨s, itemScore it⟩, ?_, rfl, rfl⟩
    rw [scoreByCount, mem_sortByScore, List.mem_filterMap]
    exact ⟨(s, it), hmem, by simp [Nat.not_lt_of_le hcount]⟩

/-- C2 counterexample: index the single document `file2 = "apple apple"` and
search for `"apple apple"`.  The query has one distinct token (`appl`) and
`file2` matches it, so the claim includes `file2`; but the code compares the
matched-token count (1) against the token list length *with duplicates* (2)
and returns the empty result list. -/
theorem c2_counterexample :
    memSearch
        (ingestDoc testStem testIsStop "file2" (strChars "apple apple")
          MemoryIndex.empty)
        testStem testIsStop (strChars "apple apple") = [] ∧
    (searchTokens testStem testIsStop (strChars "apple apple")).dedup.length = 1 ∧
    (alookup "file2"
        (searchItems
          ((ingestDoc testStem testIsStop "file2" (strChars "apple apple")
              MemoryIndex.empty).get
            (searchTokens testStem testIsStop (strChars "apple apple"))))).map
        TmpResultItem.count = some 1 := by
  refine ⟨by decide, by decide, by decide⟩

/-- Appending a fresh element preserves `Nodup`. -/
theorem nodup_snoc {α : Type} {l : List α} {x : α} (hx : x ∉ l) (hl : l.Nodup) :
    (l ++ [x]).Nodup := by
  induction l with
  | nil => simp
  | cons a as ih =>
    rcases List.nodup_cons.mp hl with ⟨ha, has⟩
    have hx' : x ∉ as := fun hc => hx (List.mem_cons_of_mem a hc)
    have hax : x ≠ a := fun hc => hx (by simp [hc])
    refine List.nodup_cons.mpr ⟨?_, ih hx' has⟩
    intro hc
    rcases List.mem_append.mp hc with hc | hc
    · exact ha hc
    · simp at hc
      exact hax hc.symm

/-- `add` keeps the source registry duplicate-free. -/
theorem add_sources_nodup {i : IndexFacade} (h : i.sources.Nodup)
    (tok : Word) (pos : Nat) (src : String) :
    (i.add tok pos src).sources.Nodup := by
  by_cases hmem : src ∈ i.sources
  · simpa [IndexFacade.add, hmem] using h
  · simpa [IndexFacade.add, hmem] using nodup_snoc hmem h

/-- Reachable states have a duplicate-free source registry. -/
theorem buildIndex_sources_nodup (ops : List (Word × Nat × String)) :
    (buildIndex ops).sources.Nodup := by
  have aux : ∀ (ops : List (Word × Nat × String)) (i : IndexFacade),
      i.sources.Nodup →
      (ops.foldl (fun i op => i.add op.1 op.2.1 op.2.2) i).sources.Nodup := by
    intro ops
    induction ops with
    | nil => intro i h; simpa using h
    | cons op rest ih =>
      intro i h
      exact ih _ (add_sources_nodup h op.1 op.2.1 op.2.2)
  exact aux ops newIndexFacade (by simp [newIndexFacade])

/-- C5: for every index state reachable by a finite sequence of add
operations, decoding the encoded snapshot restores the postings map and the
source registry exactly — every (token, source, position) triple with its
order — and the rehydrated source registry has no duplicates. -/
theorem c5_encode_decode_roundtrip (ops : List (Word × Nat × String)) :
    (decodeIndex (encodeIndex (buildIndex ops))).postings = (buildIndex ops).postings ∧
    (decodeIndex (encodeIndex (buildIndex ops))).sources = (buildIndex ops).sources ∧
    (∀ t s, facadePositions (decodeIndex (encodeIndex (buildIndex ops))) t s =
      facadePositions (buildIndex ops) t s) ∧
    (decodeIndex (encodeIndex (buildIndex ops))).sources.Nodup := by
  refine ⟨rfl, rfl, fun t s => rfl, ?_⟩
  simpa [decodeIndex, encodeIndex] using buildIndex_sources_nodup ops

/-- C4 (amended): receiving an occurrence appends it to the buffer; a tick
with a nonempty buffer and a successful bulk insert appends the whole
buffer to the store and clears the buffer; a tick whose bulk insert fails
logs the error and leaves the state — in particular the buffer — unchanged,
so the batch is retried at the next tick together with anything appended
after the failure; a tick with an empty buffer does nothing. -/
theorem c4_failed_flush_retains_buffer (s : FlushState) (o : Occurrence)
    (hopen : s.closed = false) :
    (flushStep s (.recv o)).buffer = s.buffer ++ [o] ∧
    (flushStep s (.recv o)).store = s.store ∧
    (s.buffer ≠ [] →
      (flushStep s (.tick true)).store = s.store ++ s.buffer ∧
      (flushStep s (.tick true)).buffer = []) ∧
    flushStep s (.tick false) = s ∧
    (s.buffer = [] → flushStep s (.tick true) = s) := by
  refine ⟨rfl, rfl, ?_, ?_, ?_⟩
  · intro hne
    have hne' : s.buffer.isEmpty = false := by
      cases hb : s.buffer
      · exact absurd hb hne
      · rfl
    constructor <;> simp [flushStep, hne', hopen]
  · simp [flushStep]
  · intro he
    simp [flushStep, he]

/-- C4 witness: the amended behaviour at a concrete open state with one
buffered occurrence. -/
theorem c4_witness :
    (FlushState.mk [Occurrence.mk 1 1 0] [] false).closed = false ∧
    (flushStep (FlushState.mk [Occurrence.mk 1 1 0] [] false)
        (.recv (Occurrence.mk 2 1 1))).buffer =
      [Occurrence.mk 1 1 0, Occurrence.mk 2 1 1] :=
  ⟨rfl,
    (c4_failed_flush_retains_buffer (FlushState.mk [Occurrence.mk 1 1 0] [] false)
        (Occurrence.mk 2 1 1) rfl).1⟩

/-- C4 counterexample: with one buffered occurrence, a failed tick leaves
the occurrence in the buffer (the claim says it is discarded), and the
following successful tick inserts it into the store (the claim says the
next tick proceeds with only occurrences appended after the failure). -/
theorem c4_counterexample :
    (flushStep (FlushState.mk [Occurrence.mk 1 1 0] [] false) (.tick false)).buffer =
      [Occurrence.mk 1 1 0] ∧
    (flushStep (flushStep (FlushState.mk [Occurrence.mk 1 1 0] [] false) (.tick false))
        (.tick true)).store = [Occurrence.mk 1 1 0] := by
  refine ⟨by decide, by decide⟩

/-- Once closed, the flush loop never changes the backing store: ticks fail
and receives only grow the buffer. -/
theorem runFlush_closed_store :
    ∀ (evs : List FlushEvent) (s : FlushState), s.closed = true →
      (runFlush s evs).store = s.store ∧ (runFlush s evs).closed = true
  | [], s, h => ⟨rfl, h⟩
  | ev :: evs, s, h => by
    have hstep : (flushStep s ev).store = s.store ∧ (flushStep s ev).closed = true := by
      cases ev with
      | recv o => exact ⟨rfl, h⟩
      | tick ok =>
        by_cases hb : s.buffer.isEmpty
        · simp [flushStep, hb, h]
        · simp [flushStep, hb, h]
    have ih := runFlush_closed_store evs (flushStep s ev) hstep.2
    exact ⟨by rw [runFlush, List.foldl_cons, ← runFlush, ih.1, hstep.1], by
      rw [runFlush, List.foldl_cons, ← runFlush, ih.2]⟩

/-- C10: `Close` changes neither the buffered occurrences nor the backing
store, performs no flush, and after `Close` no later event of the flush
loop ever writes the buffered occurrences: the store stays exactly as it
was at the moment of `Close`. -/
theorem c10_close_never_flushes (s : FlushState) (evs : List FlushEvent) :
    (dbClose s).store = s.store ∧
    (dbClose s).buffer = s.buffer ∧
    (runFlush (dbClose s) evs).store = s.store ∧
    (runFlush (dbClose s) evs).closed = true := by
  have h := runFlush_closed_store evs (dbClose s) rfl
  exact ⟨rfl, rfl, h.1, h.2⟩

theorem selectRow_none_fresh {rows : List (Nat × String)} {key : String}
    (h : selectRow rows key = none) : key ∉ rows.map Prod.snd := by
  intro hmem
  rcases List.mem_map.mp hmem with ⟨r, hr, hkey⟩
  have hfind : rows.find? (fun r => decide (r.2 = key)) = none := by
    cases hf : rows.find? (fun r => decide (r.2 = key))
    · rfl
    · simp [selectRow, hf] at h
  have := List.find?_eq_none.mp hfind r hr
  simp [hkey] at this

theorem alookup_append_self {α β : Type} [DecidableEq α] {l : List (α × β)} {k : α}
    (h : alookup k l = none) (v : β) : alookup k (l ++ [(k, v)]) = some v := by
  induction l with
  | nil => simp [alookup]
  | cons hd tl ih =>
    obtain ⟨a, b⟩ := hd
    by_cases ha : a = k
    · simp [alookup, ha] at h
    · simp only [List.cons_append, alookup, ha, if_false] at h ⊢
      exact ih h

/-- `getToken` touches only the token structures and the id counter. -/
theorem getToken_frame (s : DbState) (tok : String) :
    (getToken s tok).1.documentsCache = s.documentsCache ∧
    (getToken s tok).1.documentRows = s.documentRows ∧
    (getToken s tok).1.nextDocumentId = s.nextDocumentId ∧
    (getToken s tok).1.pending = s.pending := by
  cases h1 : alookup tok s.tokensCache with
  | some id => simp [getToken, h1]
  | none =>
    cases h2 : selectRow s.tokenRows tok with
    | some id => simp [getToken, h1, h2]
    | none => simp [getToken, h1, h2]

/-- `getDocument` touches only the document structures and the id counter. -/
theorem getDocument_frame (s : DbState) (name : String) :
    (getDocument s name).1.tokensCache = s.tokensCache ∧
    (getDocument s name).1.tokenRows = s.tokenRows ∧
    (getDocument s name).1.nextTokenId = s.nextTokenId ∧
    (getDocument s name).1.pending = s.pending := by
  cases h1 : alookup name s.documentsCache with
  | some id => simp [getDocument, h1]
  | none =>
    cases h2 : selectRow s.documentRows name with
    | some id => simp [getDocument, h1, h2]
    | none => simp [getDocument, h1, h2]

/-- A second `getToken` for the same value returns the same identity. -/
theorem getToken_stable (s : DbState) (tok : String) :
    (getToken (getToken s tok).1 tok).2 = (getToken s tok).2 := by
  cases h1 : alookup tok s.tokensCache with
  | some id => simp [getToken, h1]
  | none =>
    cases h2 : selectRow s.tokenRows tok with
    | some id => simp [getToken, h1, h2]
    | none =>
      have hcache := alookup_append_self h1 s.nextTokenId
      simp [getToken, h1, h2, hcache]

/-- `getToken` only depends on (and, off the frame, only changes) the token
components. -/
theorem getToken_congr {s1 s2 : DbState} (hc : s1.tokensCache = s2.tokensCache)
    (hr : s1.tokenRows = s2.tokenRows) (hn : s1.nextTokenId = s2.nextTokenId)
    (tok : String) : (getToken s1 tok).2 = (getToken s2 tok).2 := by
  cases h1 : alookup tok s2.tokensCache with
  | some id => simp [getToken, hc, hr, hn, h1]
  | none =>
    cases h2 : selectRow s2.tokenRows tok with
    | some id => simp [getToken, hc, hr, hn, h1, h2]
    | none => simp [getToken, hc, hr, hn, h1, h2]

/-- `getToken` preserves row uniqueness and appends at most one row. -/
theorem getToken_rows (s : DbState) (tok : String) (hinv : DbInv s) :
    DbInv (getToken s tok).1 ∧
    (∃ tnew, (getToken s tok).1.tokenRows = s.tokenRows ++ tnew) := by
  cases h1 : alookup tok s.tokensCache with
  | some id => exact ⟨by simpa [getToken, h1] using hinv, ⟨[], by simp [getToken, h1]⟩⟩
  | none =>
    cases h2 : selectRow s.tokenRows tok with
    | some id => exact ⟨by simpa [getToken, h1, h2] using hinv, ⟨[], by simp [getToken, h1, h2]⟩⟩
    | none =>
      refine ⟨⟨?_, by simpa [getToken, h1, h2] using hinv.2⟩,
        ⟨[(s.nextTokenId, tok)], by simp [getToken, h1, h2]⟩⟩
      have hfresh := selectRow_none_fresh h2
      have : ((s.tokenRows ++ [(s.nextTokenId, tok)]).map Prod.snd) =
          s.tokenRows.map Prod.snd ++ [tok] := by simp
      simp only [getToken, h1, h2]
      rw [this]
      exact nodup_snoc hfresh hinv.1

/-- `getDocument` preserves row uniqueness and appends at most one row. -/
theorem getDocument_rows (s : DbState) (name : String) (hinv : DbInv s) :
    DbInv (getDocument s name).1 ∧
    (∃ dnew, (getDocument s name).1.documentRows = s.documentRows ++ dnew) := by
  cases h1 : alookup name s.documentsCache with
  | some id => exact ⟨by simpa [getDocument, h1] using hinv, ⟨[], by simp [getDocument, h1]⟩⟩
  | none =>
    cases h2 : selectRow s.documentRows name with
    | some id =>
      exact ⟨by simpa [getDocument, h1, h2] using hinv, ⟨[], by simp [getDocument, h1, h2]⟩⟩
    | none =>
      refine ⟨⟨by simpa [getDocument, h1, h2] using hinv.1, ?_⟩,
        ⟨[(s.nextDocumentId, name)], by simp [getDocument, h1, h2]⟩⟩
      have hfresh := selectRow_none_fresh h2
      have : ((s.documentRows ++ [(s.nextDocumentId, name)]).map Prod.snd) =
          s.documentRows.map Prod.snd ++ [name] := by simp
      simp only [getDocument, h1, h2]
      rw [this]
      exact nodup_snoc hfresh hinv.2

/-- `Add` preserves row uniqueness and appends at most one row per table. -/
theorem dbAdd_rows (s : DbState) (tok : String) (pos : Nat) (name : String)
    (hinv : DbInv s) :
    DbInv (dbAdd s tok pos name) ∧
    (∃ tnew, (dbAdd s tok pos name).tokenRows = s.tokenRows ++ tnew) ∧
    (∃ dnew, (dbAdd s tok pos name).documentRows = s.documentRows ++ dnew) := by
  obtain ⟨hinv1, tnew, hts⟩ := getToken_rows s tok hinv
  obtain ⟨hinv2, dnew, hds⟩ := getDocument_rows (getToken s tok).1 name hinv1
  have hframeT := getDocument_frame (getToken s tok).1 name
  have hframeD := getToken_frame s tok
  refine ⟨⟨?_, ?_⟩, ⟨tnew, ?_⟩, ⟨dnew, ?_⟩⟩
  · simpa [dbAdd, hframeT.2.1] using (by simpa [hframeT.2.1] using hinv2.1 : _)
  · exact hinv2.2
  · show (getDocument (getToken s tok).1 name).1.tokenRows = s.tokenRows ++ tnew
    rw [hframeT.2.1, hts]
  · show (getDocument (getToken s tok).1 name).1.documentRows = s.documentRows ++ dnew
    rw [hds, hframeD.2.1]

/-- The occurrence recorded by `Add` carries the id `getToken` resolved. -/
theorem lastTokenId_dbAdd (s : DbState) (tok : String) (pos : Nat) (name : String) :
    lastTokenId (dbAdd s tok pos name) = some (getToken s tok).2 := by
  simp [dbAdd, lastTokenId]

/-- C6: under sequential `Add` calls, the Relational Engine creates at most
one token row per distinct token value and at most one document row per
distinct document name — the backing tables keep one row per value and only
ever grow — and two `Add` calls with the same token (and any documents)
record the same token identity. -/
theorem c6_one_identity_per_value (s : DbState) (hinv : DbInv s) :
    (∀ ops, DbInv (dbRun s ops) ∧
      (∃ tnew, (dbRun s ops).tokenRows = s.tokenRows ++ tnew) ∧
      (∃ dnew, (dbRun s ops).documentRows = s.documentRows ++ dnew)) ∧
    (∀ tok p1 p2 d1 d2,
      lastTokenId (dbAdd s tok p1 d1) = some (getToken s tok).2 ∧
      lastTokenId (dbAdd (dbAdd s tok p1 d1) tok p2 d2) = some (getToken s tok).2) := by
  constructor
  · intro ops
    induction ops generalizing s with
    | nil => exact ⟨hinv, ⟨[], by simp [dbRun]⟩, ⟨[], by simp [dbRun]⟩⟩
    | cons op rest ih =>
      obtain ⟨hinv1, ⟨t1, ht1⟩, ⟨d1, hd1⟩⟩ := dbAdd_rows s op.1 op.2.1 op.2.2 hinv
      obtain ⟨hinv2, ⟨t2, ht2⟩, ⟨d2, hd2⟩⟩ := ih (dbAdd s op.1 op.2.1 op.2.2) hinv1
      have hrun : dbRun s (op :: rest) = dbRun (dbAdd s op.1 op.2.1 op.2.2) rest := rfl
      refine ⟨by rw [hrun]; exact hinv2, ⟨t1 ++ t2, ?_⟩, ⟨d1 ++ d2, ?_⟩⟩
      · rw [hrun, ht2, ht1, List.append_assoc]
      · rw [hrun, hd2, hd1, List.append_assoc]
  · intro tok p1 p2 d1 d2
    have hDframe := getDocument_frame (getToken s tok).1 d1
    have hid2 : (getToken (dbAdd s tok p1 d1) tok).2 = (getToken s tok).2 := by
      have hc : (dbAdd s tok p1 d1).tokensCache = (getToken s tok).1.tokensCache := by
        simp [dbAdd, hDframe.1]
      have hr : (dbAdd s tok p1 d1).tokenRows = (getToken s tok).1.tokenRows := by
        simp [dbAdd, hDframe.2.1]
      have hn : (dbAdd s tok p1 d1).nextTokenId = (getToken s tok).1.nextTokenId := by
        simp [dbAdd, hDframe.2.2.1]
      rw [getToken_congr hc hr hn tok, getToken_stable]
    exact ⟨lastTokenId_dbAdd s tok p1 d1, by rw [lastTokenId_dbAdd, hid2]⟩

/-- C6 witness: uniqueness and identity stability verified on a fresh
engine over an empty store with two `Add` calls of the token `apple` for
two different documents. -/
theorem c6_witness :
    DbInv dbEmpty ∧
    lastTokenId (dbAdd (dbAdd dbEmpty "apple" 0 "file1") "apple" 1 "file2") =
      some (getToken dbEmpty "apple").2 ∧
    DbInv (dbRun dbEmpty [("apple", 0, "file1"), ("apple", 1, "file2")]) :=
  ⟨by decide,
    ((c6_one_identity_per_value dbEmpty (by decide)).2 "apple" 0 1 "file1" "file2").2,
    ((c6_one_identity_per_value dbEmpty (by decide)).1
      [("apple", 0, "file1"), ("apple", 1, "file2")]).1⟩

/-- C8: `AddSource` returns `nil` for every input; the result is
independent of the scanner's error, and a stream that fails after
delivering a prefix of the document still reports success while only the
delivered words are indexed. -/
theorem c8_addSource_ignores_scan_error (stem : Word → Word) (isStop : Word → Bool)
    (ws : List Word) (e1 e2 : Option String) :
    (addSourceRun stem isStop ⟨ws, e1⟩).1 = none ∧
    addSourceRun stem isStop ⟨ws, e1⟩ = addSourceRun stem isStop ⟨ws, e2⟩ ∧
    (addSourceRun stem isStop ⟨ws, e1⟩).2 = addSourceLoop stem isStop ws 0 :=
  ⟨rfl, rfl, rfl⟩

/-- Trace invariant: applied, in flight and unsent items always partition
the emitted sequence, in order. -/
theorem pipe_invariant {items : List (Word × Nat)} :
    ∀ {s : PipeState}, PipeReaches (pipeInit items) s →
      s.applied ++ inFlightList s ++ s.toSend = items := by
  intro s h
  induction h with
  | refl => simp [pipeInit, inFlightList]
  | tail hab hbc ih =>
    cases hbc with
    | handoff i rest ap =>
      simpa [inFlightList] using ih
    | apply ts i ap =>
      simp only [inFlightList, Option.toList] at ih ⊢
      simpa [List.append_assoc] using ih

/-- C9 (amended): `AddSource` only hands its `(token, position)` pairs to
the channel consumed by `listen`; its return guarantees that every emitted
occurrence except possibly the last has been applied to the engine — the
consumer may still be inside `engine.Add` for the last one, and a schedule
realizing exactly that is reachable.  Hence a `Search` issued immediately
after `AddSource` returns can miss the document: for a document with a
single emitted token there is a reachable post-return state whose engine
holds no position for it. -/
theorem c9_return_leaves_at_most_last_unapplied (items : List (Word × Nat)) :
    (∃ s, PipeReaches (pipeInit items) s ∧ s.toSend = [] ∧
      s.applied = items.dropLast) ∧
    (∀ s, PipeReaches (pipeInit items) s → s.toSend = [] →
      s.applied = items ∨ s.applied = items.dropLast) ∧
    (∀ tok pos name, ∃ s, PipeReaches (pipeInit [(tok, pos)]) s ∧ s.toSend = [] ∧
      (applyTokens name s.applied MemoryIndex.empty).positions tok name = []) := by
  have build : ∀ (items ap : List (Word × Nat)),
      ∃ f, PipeReaches ⟨items, none, ap⟩ ⟨[], f, ap ++ items.dropLast⟩ := by
    intro items
    induction items with
    | nil =>
      intro ap
      exact ⟨none, by simpa using Relation.ReflTransGen.refl⟩
    | cons i rest ih =>
      intro ap
      cases rest with
      | nil =>
        refine ⟨some i, ?_⟩
        have h1 : PipeStep ⟨[i], none, ap⟩ ⟨[], some i, ap⟩ := PipeStep.handoff i [] ap
        simpa using Relation.ReflTransGen.single h1
      | cons j rest2 =>
        obtain ⟨f, hf⟩ := ih (ap ++ [i])
        refine ⟨f, ?_⟩
        have h1 : PipeStep ⟨i :: j :: rest2, none, ap⟩ ⟨j :: rest2, some i, ap⟩ :=
          PipeStep.handoff i (j :: rest2) ap
        have h2 : PipeStep ⟨j :: rest2, some i, ap⟩ ⟨j :: rest2, none, ap ++ [i]⟩ :=
          PipeStep.apply (j :: rest2) i ap
        have h3 : PipeReaches ⟨i :: j :: rest2, none, ap⟩ ⟨j :: rest2, none, ap ++ [i]⟩ :=
          Relation.ReflTransGen.tail (Relation.ReflTransGen.single h1) h2
        have hdl : (i :: j :: rest2).dropLast = i :: (j :: rest2).dropLast := rfl
        rw [hdl]
        have := Relation.ReflTransGen.trans h3 hf
        simpa [List.append_assoc] using this
  refine ⟨?_, ?_, ?_⟩
  · obtain ⟨f, hf⟩ := build items []
    exact ⟨⟨[], f, items.dropLast⟩, by simpa [pipeInit] using hf, rfl, rfl⟩
  · intro s hs hsend
    have hinv := pipe_invariant hs
    rw [hsend] at hinv
    cases hfl : s.inFlight with
    | none =>
      left
      simpa [inFlightList, hfl] using hinv
    | some i =>
      right
      have : s.applied ++ [i] = items := by
        simpa [inFlightList, hfl] using hinv
      rw [← this, List.dropLast_concat]
  · intro tok pos name
    obtain ⟨f, hf⟩ := build [(tok, pos)] []
    refine ⟨⟨[], f, []⟩, by simpa [pipeInit] using hf, rfl, rfl⟩

/-- C9 counterexample: for a document emitting two occurrences, *no*
reachable state has `AddSource` returned with nothing applied — the
unbuffered rendezvous means the second send can only complete after
`engine.Add` of the first returned, so the claim that the return guarantees
nothing about applied occurrences is false. -/
theorem c9_counterexample :
    ¬ ∃ s : PipeState,
      PipeReaches (pipeInit [(strChars "appl", 0), (strChars "banana", 1)]) s ∧
      s.toSend = [] ∧ s.applied = [] := by
  rintro ⟨s, hs, hsend, happ⟩
  have hinv := pipe_invariant hs
  rw [hsend, happ] at hinv
  simp only [List.nil_append, List.append_nil] at hinv
  cases hfl : s.inFlight with
  | none => simp [inFlightList, hfl] at hinv
  | some i =>
    simp [inFlightList, hfl] at hinv

end SearchTariel
